import Mathlib

/-!
Verification of the packing-puzzle core: a shallow embedding of the Rust
sources `src/puzzle/piece/mod.rs`, `src/puzzle/piece/template.rs` and
`src/puzzle/solver.rs`, together with models (taken from the spec) of the
repository modules that are not part of the provided sources
(`vector.rs`, `position.rs`, `symmetry.rs`, `translation.rs`, `pieces.rs`).

Coordinates are mathematical integers; the spec states that an implementer
"may choose wider integers without changing semantics, as long as results
stay within the interpretable grid range", so the `i8` width of the concrete
instantiation is not load-bearing for any of the verified properties.
-/

namespace Packing

/-- A 3-dimensional coordinate tuple, the concrete `T = (i8, i8, i8)`
instantiation used by the library. -/
abbrev V3 : Type := ℤ × ℤ × ℤ

/-- Modelled from the spec: `vector.rs` is not part of the provided sources.
Component-wise addition of coordinate tuples (`VectorAdd`). -/
def vadd (a b : V3) : V3 := (a.1 + b.1, a.2.1 + b.2.1, a.2.2 + b.2.2)

/-- Modelled from the spec: component-wise negation, used for
`Position::to_reference` (the translation carrying a position to the origin). -/
def vneg (a : V3) : V3 := (-a.1, -a.2.1, -a.2.2)

/-- Modelled from the spec: component-wise difference (`VectorDifference`),
used for `Position::to` ("the translation carrying `self` onto `other`",
i.e. `other - self`). -/
def vsub (a b : V3) : V3 := (a.1 - b.1, a.2.1 - b.2.1, a.2.2 - b.2.2)

/-- The coordinate origin `(0, 0, 0)`. -/
def origin : V3 := ((0 : ℤ), (0 : ℤ), (0 : ℤ))

/-- Modelled from the spec: `position.rs` is not part of the provided sources.
The derived `Ord` on `Position<(i8, i8, i8)>` is the lexicographic order on
the coordinate tuple ("total order is defined lexicographically"). -/
def posLe (a b : V3) : Prop :=
  a.1 < b.1 ∨ (a.1 = b.1 ∧ (a.2.1 < b.2.1 ∨ (a.2.1 = b.2.1 ∧ a.2.2 ≤ b.2.2)))

instance : DecidableRel posLe := fun a b => by
  unfold posLe; infer_instance

theorem posLe_refl (a : V3) : posLe a a := by unfold posLe; omega

instance : IsTotal V3 posLe := ⟨by intro a b; unfold posLe; omega⟩

instance : IsTrans V3 posLe := ⟨by intro a b c; unfold posLe; omega⟩

instance : IsAntisymm V3 posLe := ⟨by
  intro a b h₁ h₂
  have h3 : a.1 = b.1 ∧ a.2.1 = b.2.1 ∧ a.2.2 = b.2.2 := by
    unfold posLe at h₁ h₂; omega
  calc a = (a.1, a.2.1, a.2.2) := rfl
    _ = (b.1, b.2.1, b.2.2) := by rw [h3.1, h3.2.1, h3.2.2]
    _ = b := rfl⟩

/-- The total order is invariant under translation (uniform translation
preserves the relative lexicographic order of positions). -/
theorem posLe_vadd_iff (a b v : V3) : posLe (vadd a v) (vadd b v) ↔ posLe a b := by
  obtain ⟨a1, a2, a3⟩ := a
  obtain ⟨b1, b2, b3⟩ := b
  obtain ⟨v1, v2, v3⟩ := v
  simp only [posLe, vadd]
  omega

/-- Sorting a list of positions by the lexicographic order; the embedding of
Rust's `Vec::sort` in `Piece::new` and `Piece::transform` (any sorting
algorithm yields the same result for a total antisymmetric order). -/
def sortPos (l : List V3) : List V3 := List.insertionSort posLe l

theorem sortPos_sorted (l : List V3) : List.Sorted posLe (sortPos l) :=
  List.sorted_insertionSort posLe l

theorem sortPos_perm (l : List V3) : (sortPos l).Perm l :=
  List.perm_insertionSort posLe l

/-- Two lists have the same sorted form iff they are permutations of each
other: sortedness together with antisymmetry pins the representative. -/
theorem sortPos_eq_sortPos_iff {l l' : List V3} :
    sortPos l = sortPos l' ↔ l.Perm l' := by
  constructor
  · intro h
    have h₁ := (sortPos_perm l).symm
    have h₂ := sortPos_perm l'
    exact h₁.trans (h ▸ h₂)
  · intro h
    exact List.eq_of_perm_of_sorted
      ((sortPos_perm l).trans (h.trans (sortPos_perm l').symm))
      (sortPos_sorted l) (sortPos_sorted l')

theorem sortPos_eq_self_of_sorted {l : List V3} (h : List.Sorted posLe l) :
    sortPos l = l :=
  List.eq_of_perm_of_sorted (sortPos_perm l) (sortPos_sorted l) h

/-- A sorted list stays sorted under a uniform translation. -/
theorem sorted_map_vadd {l : List V3} (v : V3) (h : List.Sorted posLe l) :
    List.Sorted posLe (l.map (fun q => vadd q v)) := by
  induction l with
  | nil => simp
  | cons x xs ih =>
    rw [List.sorted_cons] at h
    rw [List.map_cons, List.sorted_cons]
    refine ⟨?_, ih h.2⟩
    intro b hb
    obtain ⟨q, hq, rfl⟩ := List.mem_map.mp hb
    exact (posLe_vadd_iff x q v).mpr (h.1 q hq)

theorem sortPos_map_vadd (l : List V3) (v : V3) :
    sortPos (l.map (fun q => vadd q v)) = (sortPos l).map (fun q => vadd q v) :=
  List.eq_of_perm_of_sorted
    ((sortPos_perm _).trans (((sortPos_perm l).symm).map (fun q => vadd q v)))
    (sortPos_sorted _) (sorted_map_vadd v (sortPos_sorted l))

/-- The embedding of `.iter().min()` on a vector of positions: the least
element in the lexicographic order, or `none` for an empty vector. -/
def minPos : List V3 → Option V3
  | [] => none
  | x :: xs =>
    some (match minPos xs with
          | none => x
          | some m => if posLe x m then x else m)

theorem minPos_eq_none_iff (l : List V3) : minPos l = none ↔ l = [] := by
  cases l <;> simp [minPos]

theorem minPos_spec {l : List V3} {m : V3} (h : minPos l = some m) :
    m ∈ l ∧ ∀ x ∈ l, posLe m x := by
  induction l generalizing m with
  | nil => simp [minPos] at h
  | cons x xs ih =>
    rw [minPos] at h
    rcases hxs : minPos xs with _ | m'
    · rw [hxs] at h
      simp only [Option.some.injEq] at h
      rw [← h]
      have hnil : xs = [] := (minPos_eq_none_iff xs).mp hxs
      subst hnil
      refine ⟨List.mem_cons_self _ _, ?_⟩
      intro y hy
      rcases List.mem_cons.mp hy with rfl | h0
      · exact posLe_refl _
      · simp at h0
    · rw [hxs] at h
      simp only [Option.some.injEq] at h
      obtain ⟨hm', hle⟩ := ih hxs
      by_cases hc : posLe x m'
      · rw [if_pos hc] at h
        rw [← h]
        refine ⟨List.mem_cons_self _ _, ?_⟩
        intro y hy
        rcases List.mem_cons.mp hy with rfl | h0
        · exact posLe_refl _
        · exact IsTrans.trans x m' y hc (hle y h0)
      · rw [if_neg hc] at h
        rw [← h]
        refine ⟨List.mem_cons_of_mem _ hm', ?_⟩
        intro y hy
        rcases List.mem_cons.mp hy with hy0 | h0
        · rw [hy0]
          rcases IsTotal.total (r := posLe) m' x with h1 | h1
          · exact h1
          · exact absurd h1 hc
        · exact hle y h0

theorem minPos_eq_some_iff {l : List V3} {m : V3} :
    minPos l = some m ↔ m ∈ l ∧ ∀ x ∈ l, posLe m x := by
  constructor
  · exact minPos_spec
  · rintro ⟨hm, hle⟩
    rcases hmin : minPos l with _ | m'
    · rw [minPos_eq_none_iff] at hmin
      subst hmin
      simp at hm
    · obtain ⟨hm', hle'⟩ := minPos_spec hmin
      have : m = m' := IsAntisymm.antisymm _ _ (hle m' hm') (hle' m hm)
      rw [this]

theorem minPos_perm {l l' : List V3} (h : l.Perm l') : minPos l = minPos l' := by
  rcases hmin : minPos l' with _ | m
  · rw [minPos_eq_none_iff] at hmin
    subst hmin
    rw [minPos_eq_none_iff]
    exact h.eq_nil
  · obtain ⟨hm, hle⟩ := minPos_spec hmin
    exact minPos_eq_some_iff.mpr
      ⟨h.mem_iff.mpr hm, fun x hx => hle x (h.mem_iff.mp hx)⟩

theorem minPos_map_vadd (l : List V3) (v : V3) :
    minPos (l.map (fun q => vadd q v)) = (minPos l).map (fun q => vadd q v) := by
  rcases hmin : minPos l with _ | m
  · rw [minPos_eq_none_iff] at hmin
    subst hmin
    rfl
  · obtain ⟨hm, hle⟩ := minPos_spec hmin
    have hmem : vadd m v ∈ l.map (fun q => vadd q v) := List.mem_map_of_mem _ hm
    have : minPos (l.map (fun q => vadd q v)) = some (vadd m v) := by
      refine minPos_eq_some_iff.mpr ⟨hmem, ?_⟩
      intro x hx
      obtain ⟨q, hq, rfl⟩ := List.mem_map.mp hx
      exact (posLe_vadd_iff m q v).mpr (hle q hq)
    rw [this]
    rfl

theorem vadd_vadd (a v w : V3) : vadd (vadd a v) w = vadd a (vadd v w) := by
  unfold vadd
  refine Prod.ext ?_ (Prod.ext ?_ ?_) <;> simp <;> ring

theorem vadd_zero (a : V3) : vadd a origin = a := by
  unfold vadd origin
  refine Prod.ext ?_ (Prod.ext ?_ ?_) <;> simp

theorem vadd_vneg (a : V3) : vadd a (vneg a) = origin := by
  unfold vadd vneg origin
  refine Prod.ext ?_ (Prod.ext ?_ ?_) <;> simp

theorem map_vadd_map_vadd (l : List V3) (v w : V3) :
    (l.map (fun q => vadd q v)).map (fun q => vadd q w)
      = l.map (fun q => vadd q (vadd v w)) := by
  rw [List.map_map]
  exact List.map_congr_left (fun a _ => vadd_vadd a v w)

theorem map_vadd_zero (l : List V3) : l.map (fun q => vadd q origin) = l := by
  have : l.map (fun q => vadd q origin) = l.map (fun q => q) :=
    List.map_congr_left (fun a _ => vadd_zero a)
  rw [this, List.map_id']

/-- A 3×3 integer matrix given by its three rows; the semantic value of one
`CubeSymmetry` (each symmetry "is a fixed linear map on 3-tuples (sign flips
and axis permutations)"). -/
abbrev Mat3 : Type := V3 × V3 × V3

/-- Euclidean inner product of two coordinate tuples. -/
def dot (a b : V3) : ℤ := a.1 * b.1 + a.2.1 * b.2.1 + a.2.2 * b.2.2

/-- Modelled from the spec: `symmetry.rs` is not part of the provided sources.
`applyM m v` is `Position::transform` for the symmetry with matrix `m`:
the linear map applied to the coordinate tuple. -/
def applyM (m : Mat3) (v : V3) : V3 := (dot m.1 v, dot m.2.1 v, dot m.2.2 v)

def col1 (m : Mat3) : V3 := (m.1.1, m.2.1.1, m.2.2.1)

def col2 (m : Mat3) : V3 := (m.1.2.1, m.2.1.2.1, m.2.2.2.1)

def col3 (m : Mat3) : V3 := (m.1.2.2, m.2.1.2.2, m.2.2.2.2)

/-- One row of a matrix product. -/
def mrow (r : V3) (n : Mat3) : V3 := (dot r (col1 n), dot r (col2 n), dot r (col3 n))

/-- Matrix product (composition of the linear maps). -/
def mmul (m n : Mat3) : Mat3 := (mrow m.1 n, mrow m.2.1 n, mrow m.2.2 n)

/-- The identity matrix. -/
def idM : Mat3 :=
  (((1 : ℤ), (0 : ℤ), (0 : ℤ)), ((0 : ℤ), (1 : ℤ), (0 : ℤ)), ((0 : ℤ), (0 : ℤ), (1 : ℤ)))

theorem applyM_idM (v : V3) : applyM idM v = v := by
  obtain ⟨v1, v2, v3⟩ := v
  simp only [applyM, idM, dot]
  refine Prod.ext ?_ (Prod.ext ?_ ?_) <;> simp

theorem applyM_mmul (m n : Mat3) (v : V3) :
    applyM (mmul m n) v = applyM m (applyM n v) := by
  obtain ⟨⟨m11, m12, m13⟩, ⟨m21, m22, m23⟩, ⟨m31, m32, m33⟩⟩ := m
  obtain ⟨⟨n11, n12, n13⟩, ⟨n21, n22, n23⟩, ⟨n31, n32, n33⟩⟩ := n
  obtain ⟨v1, v2, v3⟩ := v
  simp only [applyM, mmul, mrow, dot, col1, col2, col3]
  refine Prod.ext ?_ (Prod.ext ?_ ?_) <;> simp <;> ring

theorem mmul_assoc (m n k : Mat3) : mmul (mmul m n) k = mmul m (mmul n k) := by
  obtain ⟨⟨m11, m12, m13⟩, ⟨m21, m22, m23⟩, ⟨m31, m32, m33⟩⟩ := m
  obtain ⟨⟨n11, n12, n13⟩, ⟨n21, n22, n23⟩, ⟨n31, n32, n33⟩⟩ := n
  obtain ⟨⟨k11, k12, k13⟩, ⟨k21, k22, k23⟩, ⟨k31, k32, k33⟩⟩ := k
  simp only [mmul, mrow, dot, col1, col2, col3]
  refine Prod.ext ?_ (Prod.ext ?_ ?_) <;>
    refine Prod.ext ?_ (Prod.ext ?_ ?_) <;> simp <;> ring

/-- Linearity of a symmetry over translation:
`transform` commutes with `translate` up to transforming the offset. -/
theorem applyM_vadd (m : Mat3) (a v : V3) :
    applyM m (vadd a v) = vadd (applyM m a) (applyM m v) := by
  obtain ⟨⟨m11, m12, m13⟩, ⟨m21, m22, m23⟩, ⟨m31, m32, m33⟩⟩ := m
  obtain ⟨a1, a2, a3⟩ := a
  obtain ⟨v1, v2, v3⟩ := v
  simp only [applyM, vadd, dot]
  refine Prod.ext ?_ (Prod.ext ?_ ?_) <;> simp <;> ring

/-- Modelled from the spec: the fixed 24-element enumeration produced by
`CubeSymmetryIterator` — "one of exactly 24 named rotation operations forming
the rotation group of the cube (order 24; no reflections)", i.e. all signed
permutation matrices of determinant `+1`, "each of the 24 exactly once" in a
fixed deterministic order.  The matrix `((0,1,0),(1,0,0),(0,0,-1))` is the one
the repository's test pins down for the variant `E2103`. -/
def allSyms : List Mat3 :=
  [ (((1:ℤ),(0:ℤ),(0:ℤ)), ((0:ℤ),(1:ℤ),(0:ℤ)), ((0:ℤ),(0:ℤ),(1:ℤ))),
    (((1:ℤ),(0:ℤ),(0:ℤ)), ((0:ℤ),(-1:ℤ),(0:ℤ)), ((0:ℤ),(0:ℤ),(-1:ℤ))),
    (((-1:ℤ),(0:ℤ),(0:ℤ)), ((0:ℤ),(1:ℤ),(0:ℤ)), ((0:ℤ),(0:ℤ),(-1:ℤ))),
    (((-1:ℤ),(0:ℤ),(0:ℤ)), ((0:ℤ),(-1:ℤ),(0:ℤ)), ((0:ℤ),(0:ℤ),(1:ℤ))),
    (((0:ℤ),(1:ℤ),(0:ℤ)), ((0:ℤ),(0:ℤ),(1:ℤ)), ((1:ℤ),(0:ℤ),(0:ℤ))),
    (((0:ℤ),(1:ℤ),(0:ℤ)), ((0:ℤ),(0:ℤ),(-1:ℤ)), ((-1:ℤ),(0:ℤ),(0:ℤ))),
    (((0:ℤ),(-1:ℤ),(0:ℤ)), ((0:ℤ),(0:ℤ),(1:ℤ)), ((-1:ℤ),(0:ℤ),(0:ℤ))),
    (((0:ℤ),(-1:ℤ),(0:ℤ)), ((0:ℤ),(0:ℤ),(-1:ℤ)), ((1:ℤ),(0:ℤ),(0:ℤ))),
    (((0:ℤ),(0:ℤ),(1:ℤ)), ((1:ℤ),(0:ℤ),(0:ℤ)), ((0:ℤ),(1:ℤ),(0:ℤ))),
    (((0:ℤ),(0:ℤ),(1:ℤ)), ((-1:ℤ),(0:ℤ),(0:ℤ)), ((0:ℤ),(-1:ℤ),(0:ℤ))),
    (((0:ℤ),(0:ℤ),(-1:ℤ)), ((1:ℤ),(0:ℤ),(0:ℤ)), ((0:ℤ),(-1:ℤ),(0:ℤ))),
    (((0:ℤ),(0:ℤ),(-1:ℤ)), ((-1:ℤ),(0:ℤ),(0:ℤ)), ((0:ℤ),(1:ℤ),(0:ℤ))),
    (((0:ℤ),(-1:ℤ),(0:ℤ)), ((-1:ℤ),(0:ℤ),(0:ℤ)), ((0:ℤ),(0:ℤ),(-1:ℤ))),
    (((0:ℤ),(1:ℤ),(0:ℤ)), ((1:ℤ),(0:ℤ),(0:ℤ)), ((0:ℤ),(0:ℤ),(-1:ℤ))),
    (((0:ℤ),(1:ℤ),(0:ℤ)), ((-1:ℤ),(0:ℤ),(0:ℤ)), ((0:ℤ),(0:ℤ),(1:ℤ))),
    (((0:ℤ),(-1:ℤ),(0:ℤ)), ((1:ℤ),(0:ℤ),(0:ℤ)), ((0:ℤ),(0:ℤ),(1:ℤ))),
    (((-1:ℤ),(0:ℤ),(0:ℤ)), ((0:ℤ),(0:ℤ),(-1:ℤ)), ((0:ℤ),(-1:ℤ),(0:ℤ))),
    (((1:ℤ),(0:ℤ),(0:ℤ)), ((0:ℤ),(0:ℤ),(1:ℤ)), ((0:ℤ),(-1:ℤ),(0:ℤ))),
    (((1:ℤ),(0:ℤ),(0:ℤ)), ((0:ℤ),(0:ℤ),(-1:ℤ)), ((0:ℤ),(1:ℤ),(0:ℤ))),
    (((-1:ℤ),(0:ℤ),(0:ℤ)), ((0:ℤ),(0:ℤ),(1:ℤ)), ((0:ℤ),(1:ℤ),(0:ℤ))),
    (((0:ℤ),(0:ℤ),(-1:ℤ)), ((0:ℤ),(-1:ℤ),(0:ℤ)), ((-1:ℤ),(0:ℤ),(0:ℤ))),
    (((0:ℤ),(0:ℤ),(1:ℤ)), ((0:ℤ),(1:ℤ),(0:ℤ)), ((-1:ℤ),(0:ℤ),(0:ℤ))),
    (((0:ℤ),(0:ℤ),(1:ℤ)), ((0:ℤ),(-1:ℤ),(0:ℤ)), ((1:ℤ),(0:ℤ),(0:ℤ))),
    (((0:ℤ),(0:ℤ),(-1:ℤ)), ((0:ℤ),(1:ℤ),(0:ℤ)), ((1:ℤ),(0:ℤ),(0:ℤ))) ]

theorem allSyms_length : allSyms.length = 24 := rfl

theorem allSyms_nodup : allSyms.Nodup := by decide

theorem idM_mem_allSyms : idM ∈ allSyms := by decide

theorem mmul_mem_allSyms :
    ∀ s ∈ allSyms, ∀ u ∈ allSyms, mmul s u ∈ allSyms := by decide

theorem inv_mem_allSyms :
    ∀ s ∈ allSyms, ∃ u ∈ allSyms, mmul s u = idM ∧ mmul u s = idM := by decide

/-- `Piece` from `src/puzzle/piece/mod.rs`: a vector of positions plus an
optional name.  Equality is the derived structural equality over both
fields (`#[derive(PartialEq, Eq, Hash)]`). -/
structure Piece where
  positions : List V3
  name : Option String
deriving DecidableEq

/-- `Piece::new`: sorts the incoming positions and stores them; no name. -/
def Piece.new (l : List V3) : Piece := ⟨sortPos l, none⟩

/-- Modelled from the spec: `Piece::named` is referenced by the provided
`template.rs` (`From<Template<T>> for Piece<T>`) but its definition is not in
the provided sources; like `Piece::new` it sorts the positions and stores
them together with the given name. -/
def Piece.named (l : List V3) (n : String) : Piece := ⟨sortPos l, some n⟩

/-- `Piece::contains`: set-membership test on the stored positions. -/
def Piece.containsPos (p : Piece) (pos : V3) : Prop := pos ∈ p.positions

instance (p : Piece) (pos : V3) : Decidable (Piece.containsPos p pos) := by
  unfold Piece.containsPos; infer_instance

/-- `Transformable for Piece`: apply the symmetry to every position, then
re-sort (`self.positions.sort()`). -/
def Piece.transform (s : Mat3) (p : Piece) : Piece :=
  ⟨sortPos (p.positions.map (applyM s)), p.name⟩

/-- `Translatable for Piece`: add the translation to every position;
the source performs no re-sort here. -/
def Piece.translate (p : Piece) (t : V3) : Piece :=
  ⟨p.positions.map (fun q => vadd q t), p.name⟩

/-- `MinimumPosition for Piece`: `self.positions.iter().min().cloned()`. -/
def Piece.minimumPosition (p : Piece) : Option V3 := minPos p.positions

/-- `Template` from `src/puzzle/piece/template.rs`: a vector of positions
plus an optional name. -/
structure Template where
  positions : List V3
  name : Option String
deriving DecidableEq

/-- `Template::new`. -/
def Template.new (l : List V3) : Template := ⟨l, none⟩

/-- `Template::with_name`. -/
def Template.withName (t : Template) (n : String) : Template := ⟨t.positions, some n⟩

/-- `impl From<Template<T>> for Piece<T>`: a named template yields a named
piece, an unnamed one a plain piece. -/
def pieceOfTemplate (t : Template) : Piece :=
  match t.name with
  | some n => Piece.named t.positions n
  | none => Piece.new t.positions

/-- One body of the closure inside `PieceIterator::next` for one symmetry:
build the piece from the template, transform it, and translate its minimum
position onto the origin.  The `unwrap` of `minimum_position()` is modelled
by `Option`: `none` is the panic on an empty template. -/
def canonQ (t : Template) (s : Mat3) : Option Piece :=
  match Piece.minimumPosition (Piece.transform s (pieceOfTemplate t)) with
  | none => none
  | some m => some (Piece.translate (Piece.transform s (pieceOfTemplate t)) (vneg m))

/-- The loop of `PieceIterator::next`, unrolled over the whole run of the
iterator: the state is the list of symmetries not yet consumed together with
`seen_pieces`; a canonicalized piece is emitted iff it is not contained in
`seen_pieces`, which then grows by it.  The result is the full sequence of
emitted pieces, `none` if the `unwrap` inside panics. -/
def runIter (t : Template) : List Mat3 → List Piece → Option (List Piece)
  | [], _ => some []
  | s :: rest, seen =>
    match canonQ t s with
    | none => none
    | some p =>
      if p ∈ seen then runIter t rest seen
      else
        match runIter t rest (seen ++ [p]) with
        | none => none
        | some l => some (p :: l)

/-- The entire output of iterating `template.into_iter()`:
all 24 symmetries consumed in the fixed order, starting from empty
`seen_pieces`; `none` if the iteration panics. -/
def piecesQ (t : Template) : Option (List Piece) := runIter t allSyms []

theorem sortPos_eq_nil_iff (l : List V3) : sortPos l = [] ↔ l = [] := by
  constructor
  · intro h
    have hp := sortPos_perm l
    rw [h] at hp
    exact hp.symm.eq_nil
  · intro h
    subst h
    rfl

theorem pieceOfTemplate_positions (t : Template) :
    (pieceOfTemplate t).positions = sortPos t.positions := by
  unfold pieceOfTemplate Piece.named Piece.new
  rcases t.name with _ | n <;> rfl

theorem pieceOfTemplate_name (t : Template) :
    (pieceOfTemplate t).name = t.name := by
  unfold pieceOfTemplate Piece.named Piece.new
  rcases h : t.name with _ | n <;> simp [h]

theorem transform_positions_eq_nil_iff (t : Template) (s : Mat3) :
    (Piece.transform s (pieceOfTemplate t)).positions = [] ↔ t.positions = [] := by
  show sortPos ((pieceOfTemplate t).positions.map (applyM s)) = [] ↔ t.positions = []
  rw [pieceOfTemplate_positions, sortPos_eq_nil_iff, List.map_eq_nil_iff,
    sortPos_eq_nil_iff]

theorem canonQ_eq_none_iff (t : Template) (s : Mat3) :
    canonQ t s = none ↔ t.positions = [] := by
  rcases hm : minPos (Piece.transform s (pieceOfTemplate t)).positions with _ | m
  · have h1 : canonQ t s = none := by
      unfold canonQ Piece.minimumPosition
      rw [hm]
    rw [minPos_eq_none_iff, transform_positions_eq_nil_iff t s] at hm
    simp [h1, hm]
  · have h1 : canonQ t s
        = some (Piece.translate (Piece.transform s (pieceOfTemplate t)) (vneg m)) := by
      unfold canonQ Piece.minimumPosition
      rw [hm]
    have h2 : t.positions ≠ [] := by
      intro h0
      have h3 : (Piece.transform s (pieceOfTemplate t)).positions = [] :=
        (transform_positions_eq_nil_iff t s).mpr h0
      have h4 : minPos (Piece.transform s (pieceOfTemplate t)).positions = none :=
        (minPos_eq_none_iff _).mpr h3
      rw [hm] at h4
      exact Option.noConfusion h4
    rw [h1]
    simp [h2]

theorem vadd_vsub (a b : V3) : vadd b (vsub a b) = a := by
  obtain ⟨a1, a2, a3⟩ := a
  obtain ⟨b1, b2, b3⟩ := b
  simp only [vadd, vsub]
  refine Prod.ext ?_ (Prod.ext ?_ ?_) <;> simp

/-- `Target` from `src/puzzle/solver.rs`: the collection of unfilled cells. -/
structure Target where
  collection : List V3
deriving DecidableEq

/-- `Target::new`. -/
def Target.new (l : List V3) : Target := ⟨l⟩

/-- `Target::is_packed`: nothing left to pack. -/
def Target.isPacked (t : Target) : Prop := t.collection = []

instance (t : Target) : Decidable (Target.isPacked t) := by
  unfold Target.isPacked; infer_instance

/-- `Target::fits`: every position of the piece is an unfilled cell. -/
def Target.fits (t : Target) (p : Piece) : Prop :=
  ∀ pos ∈ p.positions, pos ∈ t.collection

instance (t : Target) (p : Piece) : Decidable (Target.fits t p) := by
  unfold Target.fits; infer_instance

/-- `Target::place`: keep exactly the cells the piece does not contain. -/
def Target.place (t : Target) (p : Piece) : Target :=
  ⟨t.collection.filter (fun pos => decide (pos ∉ p.positions))⟩

theorem mem_place_iff (t : Target) (p : Piece) (pos : V3) :
    pos ∈ (Target.place t p).collection ↔ pos ∈ t.collection ∧ pos ∉ p.positions := by
  unfold Target.place
  simp [List.mem_filter]

/-- `MinimumPosition for Target`. -/
def Target.minimumPosition (t : Target) : Option V3 := minPos t.collection

theorem length_place_lt {t : Target} {p : Piece} {q : V3}
    (hq : q ∈ t.collection) (hp : q ∈ p.positions) :
    (Target.place t p).collection.length < t.collection.length := by
  unfold Target.place
  refine List.length_filter_lt_length_iff_exists.mpr ?_
  exact ⟨q, hq, by simp [hp]⟩

/-- `Solution` from `src/puzzle/solver.rs`: the ordered list of placed pieces. -/
structure Solution where
  pieces : List Piece
deriving DecidableEq

/-- `Solution::empty`. -/
def Solution.empty : Solution := ⟨[]⟩

/-- `Solution::record`: a new solution with the piece appended. -/
def Solution.record (s : Solution) (p : Piece) : Solution := ⟨s.pieces ++ [p]⟩

/-- Modelled from the spec: `pieces.rs` (the `Bag` piece supply) is not part
of the provided sources.  "Abstractly, a multiset of (count, Template) pairs"
(`Bag::new(vec!((2, Template::new(...))))` in the repository's tests). -/
structure Bag where
  contents : List (Nat × Template)
deriving DecidableEq

/-- Modelled from the spec: iterating a `Bag` "can be iterated to yield
`(template, remaining_supply_without_one_copy_of_that_template)` pairs,
where `remaining_supply` reflects one fewer available copy"; an entry with
no copies left offers nothing. -/
def bagOptions : List (Nat × Template) → List (Template × List (Nat × Template))
  | [] => []
  | (n, t) :: rest =>
    let tail := (bagOptions rest).map (fun pr => (pr.1, (n, t) :: pr.2))
    if n = 0 then tail else (t, (n - 1, t) :: rest) :: tail

/-- The pairs yielded by `for (template, rest_of_bag) in bag`. -/
def Bag.options (b : Bag) : List (Template × Bag) :=
  (bagOptions b.contents).map (fun pr => (pr.1, ⟨pr.2⟩))

/-- The open cell is covered by the aligned piece: after translating a piece
so that its minimum position `block` lands on `openPos`, the position
`openPos` is one of its cells. -/
theorem openPos_mem_translate {p : Piece} {openPos block : V3}
    (hb : block ∈ p.positions) :
    openPos ∈ (Piece.translate p (vsub openPos block)).positions := by
  unfold Piece.translate
  exact List.mem_map.mpr ⟨block, hb, vadd_vsub openPos block⟩

mutual

/-- `solve_with` from `src/puzzle/solver.rs`.  The result is the list of
solutions passed to the `when_solved` callback, in call order, together with
a flag telling whether the run ends in a panic (an `unwrap` of `none`, which
aborts the whole search but leaves the callbacks already made).  A packed
target reports the partial solution; otherwise the minimum open cell is
selected and every supply option is tried. -/
def solveWith (target : Target) (bag : Bag) (sol : Solution) :
    List Solution × Bool :=
  if Target.isPacked target then ([sol], false)
  else
    match hm : minPos target.collection with
    | none => ([], true)
    | some openPos => loopOptions target openPos (minPos_spec hm).1 sol (Bag.options bag)
termination_by (target.collection.length, 2, 0)

/-- The loop `for (template, rest_of_bag) in bag` inside `solve_with`. -/
def loopOptions (target : Target) (openPos : V3)
    (hmem : openPos ∈ target.collection) (sol : Solution) :
    List (Template × Bag) → List Solution × Bool
  | [] => ([], false)
  | (tpl, rest) :: more =>
    match piecesQ tpl with
    | none => ([], true)
    | some ps =>
      let r1 := loopPieces target openPos hmem sol rest ps
      if r1.2 then r1
      else
        let r2 := loopOptions target openPos hmem sol more
        (r1.1 ++ r2.1, r2.2)
termination_by opts => (target.collection.length, 1, opts.length)

/-- The loop `for mut piece in template` inside `solve_with`: translate the
piece's minimum position onto the open cell, fit-test, and recurse on the
smaller target on success. -/
def loopPieces (target : Target) (openPos : V3)
    (hmem : openPos ∈ target.collection) (sol : Solution) (rest : Bag) :
    List Piece → List Solution × Bool
  | [] => ([], false)
  | p :: ps =>
    match hb : minPos p.positions with
    | none => ([], true)
    | some block =>
      let p' := Piece.translate p (vsub openPos block)
      if Target.fits target p' then
        let r1 := solveWith (Target.place target p') rest (Solution.record sol p')
        if r1.2 then r1
        else
          let r2 := loopPieces target openPos hmem sol rest ps
          (r1.1 ++ r2.1, r2.2)
      else loopPieces target openPos hmem sol rest ps
termination_by ps => (target.collection.length, 0, ps.length)
decreasing_by
  · apply Prod.Lex.left
    exact length_place_lt hmem (openPos_mem_translate (minPos_spec hb).1)
  · apply Prod.Lex.right
    apply Prod.Lex.right
    simp
  · apply Prod.Lex.right
    apply Prod.Lex.right
    simp

end

/-- `solve`: `solve_with` started from the empty partial solution. -/
def solve (target : Target) (bag : Bag) : List Solution × Bool :=
  solveWith target bag Solution.empty

theorem runIter_eq_none_of_empty {t : Template} (ht : t.positions = []) :
    ∀ syms : List Mat3, syms ≠ [] → ∀ seen, runIter t syms seen = none := by
  intro syms hs seen
  cases syms with
  | nil => exact absurd rfl hs
  | cons s rest =>
    have hc : canonQ t s = none := (canonQ_eq_none_iff t s).mpr ht
    simp only [runIter, hc]

theorem runIter_isSome_of_nonempty {t : Template} (ht : t.positions ≠ []) :
    ∀ (syms : List Mat3) (seen : List Piece), ∃ l, runIter t syms seen = some l := by
  intro syms
  induction syms with
  | nil => exact fun seen => ⟨[], rfl⟩
  | cons s rest ih =>
    intro seen
    rcases hc : canonQ t s with _ | p
    · exact absurd ((canonQ_eq_none_iff t s).mp hc) ht
    · by_cases hseen : p ∈ seen
      · obtain ⟨l, hl⟩ := ih seen
        refine ⟨l, ?_⟩
        simp only [runIter, hc, if_pos hseen, hl]
      · obtain ⟨l, hl⟩ := ih (seen ++ [p])
        refine ⟨p :: l, ?_⟩
        simp only [runIter, hc, if_neg hseen, hl]

/-- Every piece emitted during a run of the iterator is the canonicalization
of one of the symmetries consumed during that run. -/
theorem runIter_mem {t : Template} :
    ∀ (syms : List Mat3) (seen l : List Piece), runIter t syms seen = some l →
      ∀ p ∈ l, ∃ s ∈ syms, canonQ t s = some p := by
  intro syms
  induction syms with
  | nil =>
    intro seen l hl p hp
    simp only [runIter, Option.some.injEq] at hl
    rw [← hl] at hp
    simp at hp
  | cons s rest ih =>
    intro seen l hl p hp
    rcases hc : canonQ t s with _ | q
    · simp only [runIter, hc] at hl
      exact Option.noConfusion hl
    · simp only [runIter, hc] at hl
      by_cases hseen : q ∈ seen
      · rw [if_pos hseen] at hl
        obtain ⟨s', hs', hcs'⟩ := ih seen l hl p hp
        exact ⟨s', List.mem_cons_of_mem _ hs', hcs'⟩
      · rw [if_neg hseen] at hl
        rcases hrest : runIter t rest (seen ++ [q]) with _ | l'
        · rw [hrest] at hl
          exact Option.noConfusion hl
        · rw [hrest] at hl
          simp only [Option.some.injEq] at hl
          rw [← hl] at hp
          rcases List.mem_cons.mp hp with hpq | hpl
          · exact ⟨s, List.mem_cons_self _ _, by rw [hc, hpq]⟩
          · obtain ⟨s', hs', hcs'⟩ := ih _ _ hrest p hpl
            exact ⟨s', List.mem_cons_of_mem _ hs', hcs'⟩

/-- A canonicalized piece has its minimum position at the origin. -/
theorem canonQ_minimum_origin {t : Template} {s : Mat3} {p : Piece}
    (h : canonQ t s = some p) : Piece.minimumPosition p = some origin := by
  unfold canonQ at h
  rcases hm : Piece.minimumPosition (Piece.transform s (pieceOfTemplate t)) with _ | m
  · rw [hm] at h
    simp at h
  · rw [hm] at h
    simp only [Option.some.injEq] at h
    rw [← h]
    unfold Piece.minimumPosition at hm ⊢
    unfold Piece.translate
    rw [minPos_map_vadd, hm]
    simp [vadd_vneg]

/-- C3: every Piece yielded by iterating a non-empty Template's orientation
generator has minimum position equal to the coordinate origin `(0, 0, 0)`. -/
theorem C3_canonical_anchoring (t : Template) (ht : t.positions ≠ [])
    (l : List Piece) (hl : piecesQ t = some l) (p : Piece) (hp : p ∈ l) :
    Piece.minimumPosition p = some origin := by
  obtain ⟨s, _, hcs⟩ := runIter_mem allSyms [] l hl p hp
  exact canonQ_minimum_origin hcs

/-- Witness for C3 at the one-cube template `{(1, 2, 3)}`, whose generator
emits exactly the origin cube. -/
theorem C3_canonical_anchoring_witness :
    (Template.new [((1:ℤ), (2:ℤ), (3:ℤ))]).positions ≠ []
      ∧ Piece.minimumPosition (Piece.mk [origin] none) = some origin := by
  refine ⟨by decide, ?_⟩
  exact C3_canonical_anchoring (Template.new [((1:ℤ), (2:ℤ), (3:ℤ))]) (by decide)
    [Piece.mk [origin] none] (by decide) (Piece.mk [origin] none) (by decide)

/-- C4: on a packed target (no cells remain), `solve` reports exactly one
solution, the empty one, and terminates normally, for every supply. -/
theorem C4_empty_target (target : Target) (bag : Bag)
    (h : Target.isPacked target) :
    solve target bag = ([Solution.empty], false) := by
  unfold solve solveWith
  rw [if_pos h]

/-- Witness for C4 at the empty target. -/
theorem C4_empty_target_witness :
    Target.isPacked (Target.new []) ∧
      solve (Target.new []) (Bag.mk [(2, Template.new [origin])])
        = ([Solution.empty], false) :=
  ⟨by decide, C4_empty_target _ _ (by decide)⟩

/-- C5: `Target::place` returns a target containing exactly the cells of the
original that the piece does not contain (its collection is the filtered
sublist of the original's, which is itself left unchanged by the call since
`place` is a pure function of its arguments). -/
theorem C5_place_removes_exactly (t : Target) (p : Piece) :
    (∀ pos, pos ∈ (Target.place t p).collection
        ↔ pos ∈ t.collection ∧ ¬ Piece.containsPos p pos)
      ∧ (Target.place t p).collection.Sublist t.collection := by
  constructor
  · intro pos
    rw [mem_place_iff]
    exact Iff.rfl
  · exact List.filter_sublist _

/-- C6 fails as stated: `Piece::new` sorts but does not deduplicate, so a
duplicated input position is stored twice. -/
theorem C6_counterexample :
    (Piece.new [origin, origin]).positions = [origin, origin]
      ∧ ¬ (Piece.new [origin, origin]).positions.Nodup := by
  constructor
  · decide
  · decide

/-- C6 (amended): `Piece::new` stores a sorted sequence (duplicates are kept,
not removed), and two Pieces built from any two reorderings of the same
position list (same multiset) are equal. -/
theorem C6_new_sorted_perm_invariant :
    (∀ l : List V3, List.Sorted posLe (Piece.new l).positions)
      ∧ ∀ l₁ l₂ : List V3, l₁.Perm l₂ → Piece.new l₁ = Piece.new l₂ := by
  constructor
  · intro l
    exact sortPos_sorted l
  · intro l₁ l₂ h
    unfold Piece.new
    rw [sortPos_eq_sortPos_iff.mpr h]

/-- Witness for C6 (amended) at a two-element reordering. -/
theorem C6_new_sorted_perm_invariant_witness :
    ([origin, ((1:ℤ), (2:ℤ), (3:ℤ))] : List V3).Perm [((1:ℤ), (2:ℤ), (3:ℤ)), origin]
      ∧ Piece.new [origin, ((1:ℤ), (2:ℤ), (3:ℤ))]
        = Piece.new [((1:ℤ), (2:ℤ), (3:ℤ)), origin] :=
  ⟨by decide, C6_new_sorted_perm_invariant.2 _ _ (by decide)⟩

/-- C7 fails as stated: the derived `PartialEq` of `Piece` compares the
`name` field too, so two pieces with identical (sorted) positions but
different names are not equal. -/
theorem C7_counterexample :
    (Piece.named [origin] "a").positions = (Piece.new [origin]).positions
      ∧ Piece.named [origin] "a" ≠ Piece.new [origin] := by
  constructor
  · decide
  · decide

/-- C7 (amended): equality of `Piece` is the derived structural equality over
both fields: two pieces are equal iff they hold the same stored position
sequence and the same optional name. -/
theorem C7_eq_iff_positions_and_name (p q : Piece) :
    p = q ↔ p.positions = q.positions ∧ p.name = q.name := by
  obtain ⟨pp, pn⟩ := p
  obtain ⟨qp, qn⟩ := q
  simp [Piece.mk.injEq]

/-- C8: translating a piece maps every stored position uniformly and performs
no re-sort, and this preserves sortedness of the stored sequence (uniform
translation preserves the relative order); `transform`, by contrast, re-sorts,
so its result is sorted unconditionally. -/
theorem C8_translate_preserves_order (p : Piece) (tr : V3)
    (h : List.Sorted posLe p.positions) :
    (Piece.translate p tr).positions = p.positions.map (fun q => vadd q tr)
      ∧ List.Sorted posLe (Piece.translate p tr).positions
      ∧ ∀ s : Mat3, List.Sorted posLe (Piece.transform s p).positions := by
  refine ⟨rfl, ?_, ?_⟩
  · exact sorted_map_vadd tr h
  · intro s
    exact sortPos_sorted _

/-- Witness for C8 at a concrete sorted piece and translation. -/
theorem C8_translate_preserves_order_witness :
    List.Sorted posLe (Piece.new [((1:ℤ), (0:ℤ), (0:ℤ)), origin]).positions
      ∧ List.Sorted posLe
          ((Piece.new [((1:ℤ), (0:ℤ), (0:ℤ)), origin]).translate
            ((5:ℤ), (-3:ℤ), (0:ℤ))).positions :=
  ⟨by decide,
    (C8_translate_preserves_order _ ((5:ℤ), (-3:ℤ), (0:ℤ)) (by decide)).2.1⟩

/-- C9: `minimum_position` returns `none` exactly on an empty collection
(both for `Target` and for `Piece`), and on the non-packed branch of
`solve_with` the target is non-empty, so the unwrapped value exists. -/
theorem C9_minimum_position_total :
    (∀ t : Target, Target.minimumPosition t = none ↔ t.collection = [])
      ∧ (∀ p : Piece, Piece.minimumPosition p = none ↔ p.positions = [])
      ∧ ∀ target : Target, ¬ Target.isPacked target →
          ∃ m, Target.minimumPosition target = some m := by
  refine ⟨fun t => minPos_eq_none_iff _, fun p => minPos_eq_none_iff _, ?_⟩
  intro target h
  rcases hm : Target.minimumPosition target with _ | m
  · unfold Target.minimumPosition at hm
    rw [minPos_eq_none_iff] at hm
    exact absurd hm h
  · exact ⟨m, rfl⟩

/-- Witness for C9 at a concrete non-packed target. -/
theorem C9_minimum_position_total_witness :
    ¬ Target.isPacked (Target.new [origin])
      ∧ ∃ m, Target.minimumPosition (Target.new [origin]) = some m :=
  ⟨by decide, C9_minimum_position_total.2.2 _ (by decide)⟩

/-- C10: iterating the orientation generator of an empty template panics at
the first `next()` (the `unwrap` of `minimum_position()` sees `none`), while
for a template with at least one position the unwrap always succeeds and the
whole iteration completes without panic. -/
theorem C10_iterator_panic_dichotomy (t : Template) :
    (t.positions = [] → piecesQ t = none)
      ∧ (t.positions ≠ [] → ∃ l, piecesQ t = some l) := by
  constructor
  · intro ht
    exact runIter_eq_none_of_empty ht allSyms (by decide) []
  · intro ht
    exact runIter_isSome_of_nonempty ht allSyms []

/-- Witness for C10: the empty template panics, the one-cube template
iterates to completion. -/
theorem C10_iterator_panic_dichotomy_witness :
    piecesQ (Template.new []) = none
      ∧ ∃ l, piecesQ (Template.new [origin]) = some l :=
  ⟨(C10_iterator_panic_dichotomy (Template.new [])).1 rfl,
    (C10_iterator_panic_dichotomy (Template.new [origin])).2 (by decide)⟩

theorem vneg_vadd_self (a : V3) : vadd (vneg a) a = origin := by
  obtain ⟨a1, a2, a3⟩ := a
  simp only [vadd, vneg, origin]
  refine Prod.ext ?_ (Prod.ext ?_ ?_) <;> simp

theorem vadd_vneg_vadd (v m : V3) : vadd v (vneg (vadd m v)) = vneg m := by
  obtain ⟨v1, v2, v3⟩ := v
  obtain ⟨m1, m2, m3⟩ := m
  simp only [vadd, vneg]
  refine Prod.ext ?_ (Prod.ext ?_ ?_) <;> simp <;> ring

theorem idM_mmul (m : Mat3) : mmul idM m = m := by
  obtain ⟨⟨m11, m12, m13⟩, ⟨m21, m22, m23⟩, ⟨m31, m32, m33⟩⟩ := m
  simp only [mmul, mrow, dot, col1, col2, col3, idM]
  refine Prod.ext ?_ (Prod.ext ?_ ?_) <;>
    refine Prod.ext ?_ (Prod.ext ?_ ?_) <;> simp

theorem mmul_idM (m : Mat3) : mmul m idM = m := by
  obtain ⟨⟨m11, m12, m13⟩, ⟨m21, m22, m23⟩, ⟨m31, m32, m33⟩⟩ := m
  simp only [mmul, mrow, dot, col1, col2, col3, idM]
  refine Prod.ext ?_ (Prod.ext ?_ ?_) <;>
    refine Prod.ext ?_ (Prod.ext ?_ ?_) <;> simp

theorem map_applyM_mmul (X : List V3) (s u : Mat3) :
    X.map (applyM (mmul s u)) = (X.map (applyM u)).map (applyM s) := by
  rw [List.map_map]
  exact List.map_congr_left (fun a _ => applyM_mmul s u a)

theorem map_applyM_idM (X : List V3) : X.map (applyM idM) = X := by
  have h : X.map (applyM idM) = X.map (fun q => q) :=
    List.map_congr_left (fun a _ => applyM_idM a)
  rw [h, List.map_id']

/-- Cancelling an invertible symmetry on both sides of a permutation. -/
theorem perm_map_applyM_cancel {X Y : List V3} {s s' : Mat3}
    (hinv : mmul s' s = idM)
    (h : (X.map (applyM s)).Perm (Y.map (applyM s))) : X.Perm Y := by
  have h2 := h.map (applyM s')
  rw [List.map_map, List.map_map] at h2
  have h3 : ∀ Z : List V3, Z.map (applyM s' ∘ applyM s) = Z := by
    intro Z
    have h4 : Z.map (applyM s' ∘ applyM s) = Z.map (applyM (mmul s' s)) :=
      (List.map_congr_left (fun a _ => (applyM_mmul s' s a).symm))
    rw [h4, hinv, map_applyM_idM]
  rw [h3 X, h3 Y] at h2
  exact h2

/-- The canonical (anchor-normalized) form of a list of cells: sort, then
translate the minimum onto the origin — the shape-dependent part of the
iterator's closure. -/
def canonList (X : List V3) : List V3 :=
  match minPos X with
  | none => []
  | some m => (sortPos X).map (fun q => vadd q (vneg m))

theorem canonList_perm_congr {X Y : List V3} (h : X.Perm Y) :
    canonList X = canonList Y := by
  unfold canonList
  rw [minPos_perm h, sortPos_eq_sortPos_iff.mpr h]

/-- Two non-empty cell lists have the same canonical form iff one is a
uniform translate of the other (as multisets). -/
theorem canonList_eq_iff {X Y : List V3} (hX : X ≠ []) (hY : Y ≠ []) :
    canonList X = canonList Y ↔ ∃ v, Y.Perm (X.map (fun q => vadd q v)) := by
  rcases hmX : minPos X with _ | mX
  · exact absurd ((minPos_eq_none_iff X).mp hmX) hX
  rcases hmY : minPos Y with _ | mY
  · exact absurd ((minPos_eq_none_iff Y).mp hmY) hY
  have hcX : canonList X = (sortPos X).map (fun q => vadd q (vneg mX)) := by
    unfold canonList
    rw [hmX]
  have hcY : canonList Y = (sortPos Y).map (fun q => vadd q (vneg mY)) := by
    unfold canonList
    rw [hmY]
  rw [hcX, hcY]
  constructor
  · intro h
    refine ⟨vadd (vneg mX) mY, ?_⟩
    have h2 := congrArg (List.map (fun q => vadd q mY)) h
    rw [map_vadd_map_vadd, map_vadd_map_vadd, vneg_vadd_self, map_vadd_zero] at h2
    refine ((sortPos_perm Y).symm.trans ?_).trans ((sortPos_perm X).map _)
    rw [← h2]
  · rintro ⟨v, hp⟩
    have h1 : minPos Y = some (vadd mX v) := by
      rw [minPos_perm hp, minPos_map_vadd, hmX]
      rfl
    rw [hmY] at h1
    have h1' : mY = vadd mX v := by
      simp only [Option.some.injEq] at h1
      exact h1
    have h2 : sortPos Y = (sortPos X).map (fun q => vadd q v) := by
      rw [sortPos_eq_sortPos_iff.mpr hp, sortPos_map_vadd]
    rw [h2, map_vadd_map_vadd, h1', vadd_vneg_vadd]

theorem piece_ext {p q : Piece} (h1 : p.positions = q.positions)
    (h2 : p.name = q.name) : p = q := by
  cases p
  cases q
  simp_all

/-- The canonicalized piece for one symmetry, total on non-empty templates
(the `getD` default is never reached there). -/
def canonP (t : Template) (s : Mat3) : Piece :=
  (canonQ t s).getD (Piece.mk [] none)

theorem canonQ_eq_some_canonP {t : Template} (ht : t.positions ≠ []) (s : Mat3) :
    canonQ t s = some (canonP t s) := by
  rcases hc : canonQ t s with _ | p
  · exact absurd ((canonQ_eq_none_iff t s).mp hc) ht
  · rw [canonP, hc]
    rfl

/-- The canonicalized piece's cells are the canonical form of the transformed
template cells, and its name is the template's. -/
theorem canonP_spec {t : Template} (ht : t.positions ≠ []) (s : Mat3) :
    (canonP t s).positions = canonList (t.positions.map (applyM s))
      ∧ (canonP t s).name = t.name := by
  have hperm : ((sortPos t.positions).map (applyM s)).Perm
      (t.positions.map (applyM s)) := (sortPos_perm t.positions).map _
  have htrpos : (Piece.transform s (pieceOfTemplate t)).positions
      = sortPos (t.positions.map (applyM s)) := by
    show sortPos ((pieceOfTemplate t).positions.map (applyM s)) = _
    rw [pieceOfTemplate_positions]
    exact sortPos_eq_sortPos_iff.mpr hperm
  have hne : (Piece.transform s (pieceOfTemplate t)).positions ≠ [] := by
    rw [Ne, transform_positions_eq_nil_iff]
    exact ht
  rcases hm : minPos (Piece.transform s (pieceOfTemplate t)).positions with _ | m
  · exact absurd ((minPos_eq_none_iff _).mp hm) hne
  have hmA : minPos (t.positions.map (applyM s)) = some m := by
    have h0 : minPos (sortPos (t.positions.map (applyM s))) = some m := by
      rw [← htrpos]
      exact hm
    rw [minPos_perm (sortPos_perm _)] at h0
    exact h0
  have hc : canonQ t s
      = some (Piece.translate (Piece.transform s (pieceOfTemplate t)) (vneg m)) := by
    unfold canonQ Piece.minimumPosition
    rw [hm]
  have hcl : canonList (t.positions.map (applyM s))
      = (sortPos (t.positions.map (applyM s))).map (fun q => vadd q (vneg m)) := by
    unfold canonList
    rw [hmA]
  constructor
  · rw [canonP, hc]
    show (Piece.transform s (pieceOfTemplate t)).positions.map (fun q => vadd q (vneg m))
      = canonList (t.positions.map (applyM s))
    rw [htrpos, hcl]
  · rw [canonP, hc]
    show (pieceOfTemplate t).name = t.name
    exact pieceOfTemplate_name t

theorem canonP_eq_iff {t : Template} (ht : t.positions ≠ []) (s u : Mat3) :
    canonP t s = canonP t u
      ↔ canonList (t.positions.map (applyM s))
          = canonList (t.positions.map (applyM u)) := by
  obtain ⟨hs1, hs2⟩ := canonP_spec ht s
  obtain ⟨hu1, hu2⟩ := canonP_spec ht u
  constructor
  · intro h
    rw [← hs1, ← hu1, h]
  · intro h
    exact piece_ext (hs1.trans (h.trans hu1.symm)) (hs2.trans hu2.symm)

/-- Two symmetries give the same canonicalized piece iff the transformed cell
multisets are uniform translates of one another. -/
theorem canonP_eq_iff_perm {t : Template} (ht : t.positions ≠ []) (s u : Mat3) :
    canonP t s = canonP t u
      ↔ ∃ v, (t.positions.map (applyM u)).Perm
          ((t.positions.map (applyM s)).map (fun q => vadd q v)) := by
  rw [canonP_eq_iff ht s u]
  refine canonList_eq_iff ?_ ?_
  · intro h
    exact ht (List.map_eq_nil_iff.mp h)
  · intro h
    exact ht (List.map_eq_nil_iff.mp h)

/-- The left-coset characterization of equal canonical orientations: composing
with a fixed rotation `s₀` carries the fiber of the identity's orientation
onto the fiber of `s₀`'s orientation. -/
theorem canonP_coset_iff {t : Template} (ht : t.positions ≠ [])
    {s₀ s₀' : Mat3} (h1 : mmul s₀ s₀' = idM) (h2 : mmul s₀' s₀ = idM)
    (u : Mat3) :
    canonP t (mmul s₀ u) = canonP t s₀ ↔ canonP t u = canonP t idM := by
  rw [canonP_eq_iff_perm ht, canonP_eq_iff_perm ht]
  constructor
  · rintro ⟨v, hp⟩
    refine ⟨applyM s₀' v, ?_⟩
    rw [map_applyM_idM]
    rw [map_applyM_mmul] at hp
    have hswap : (((t.positions.map (applyM u)).map (applyM s₀)).map
          (fun q => vadd q v))
        = ((t.positions.map (applyM u)).map
            (fun q => vadd q (applyM s₀' v))).map (applyM s₀) := by
      simp only [List.map_map]
      refine List.map_congr_left ?_
      intro a _
      simp only [Function.comp]
      show vadd (applyM s₀ (applyM u a)) v
        = applyM s₀ (vadd (applyM u a) (applyM s₀' v))
      rw [applyM_vadd]
      congr 1
      rw [← applyM_mmul, h1, applyM_idM]
    rw [hswap] at hp
    exact perm_map_applyM_cancel h2 hp
  · rintro ⟨v, hp⟩
    rw [map_applyM_idM] at hp
    refine ⟨applyM s₀ v, ?_⟩
    rw [map_applyM_mmul]
    have hswap : (((t.positions.map (applyM u)).map (applyM s₀)).map
          (fun q => vadd q (applyM s₀ v)))
        = ((t.positions.map (applyM u)).map
            (fun q => vadd q v)).map (applyM s₀) := by
      simp only [List.map_map]
      refine List.map_congr_left ?_
      intro a _
      simp only [Function.comp]
      show vadd (applyM s₀ (applyM u a)) (applyM s₀ v)
        = applyM s₀ (vadd (applyM u a) v)
      rw [applyM_vadd]
    rw [hswap]
    exact hp.map (applyM s₀)

/-- All fibers of `canonP t` over the 24 symmetries have the same size: the
size of the stabilizer-fiber of the identity. -/
theorem fiber_card_const {t : Template} (ht : t.positions ≠ [])
    {s₀ : Mat3} (hs₀ : s₀ ∈ allSyms) :
    (allSyms.toFinset.filter (fun s => canonP t s = canonP t s₀)).card
      = (allSyms.toFinset.filter (fun u => canonP t u = canonP t idM)).card := by
  obtain ⟨s₀', hs₀'mem, hinv1, hinv2⟩ := inv_mem_allSyms s₀ hs₀
  refine (Finset.card_bij (fun u _ => mmul s₀ u) ?_ ?_ ?_).symm
  · intro u hu
    rw [Finset.mem_filter] at hu ⊢
    refine ⟨List.mem_toFinset.mpr
      (mmul_mem_allSyms s₀ hs₀ u (List.mem_toFinset.mp hu.1)), ?_⟩
    exact (canonP_coset_iff ht hinv1 hinv2 u).mpr hu.2
  · intro u1 hu1 u2 hu2 heq
    have h := congrArg (mmul s₀') heq
    rw [← mmul_assoc, ← mmul_assoc, hinv2, idM_mmul, idM_mmul] at h
    exact h
  · intro b hb
    rw [Finset.mem_filter] at hb
    have hbmem : b ∈ allSyms := List.mem_toFinset.mp hb.1
    have hmulb : mmul s₀ (mmul s₀' b) = b := by
      rw [← mmul_assoc, hinv1, idM_mmul]
    refine ⟨mmul s₀' b, Finset.mem_filter.mpr ⟨?_, ?_⟩, hmulb⟩
    · exact List.mem_toFinset.mpr (mmul_mem_allSyms s₀' hs₀'mem b hbmem)
    · refine (canonP_coset_iff ht hinv1 hinv2 (mmul s₀' b)).mp ?_
      rw [hmulb]
      exact hb.2

/-- Orbit counting: the number of distinct canonical orientations divides the
order 24 of the rotation group. -/
theorem card_image_canonP_dvd {t : Template} (ht : t.positions ≠ []) :
    (allSyms.toFinset.image (canonP t)).card ∣ 24 := by
  have hsum := Finset.card_eq_sum_card_image (canonP t) allSyms.toFinset
  have hcard24 : allSyms.toFinset.card = 24 := by
    rw [List.toFinset_card_of_nodup allSyms_nodup, allSyms_length]
  have hconstk : ∀ b ∈ allSyms.toFinset.image (canonP t),
      (allSyms.toFinset.filter (fun s => canonP t s = b)).card
        = (allSyms.toFinset.filter (fun u => canonP t u = canonP t idM)).card := by
    intro b hb
    obtain ⟨s₀, hs₀, hbeq⟩ := Finset.mem_image.mp hb
    rw [← hbeq]
    exact fiber_card_const ht (List.mem_toFinset.mp hs₀)
  rw [Finset.sum_congr rfl hconstk, Finset.sum_const, smul_eq_mul] at hsum
  exact ⟨_, by rw [← hcard24, hsum]⟩

/-- The run of the iterator emits without duplicates, exactly the
canonicalized orientations of the consumed symmetries that were not already
in `seen_pieces`, each at its first occurrence. -/
theorem runIter_nodup_mem {t : Template} :
    ∀ (syms : List Mat3) (seen l : List Piece), runIter t syms seen = some l →
      l.Nodup ∧ ∀ p, p ∈ l ↔ ((∃ s ∈ syms, canonQ t s = some p) ∧ p ∉ seen) := by
  intro syms
  induction syms with
  | nil =>
    intro seen l hl
    simp only [runIter, Option.some.injEq] at hl
    rw [← hl]
    refine ⟨List.nodup_nil, ?_⟩
    intro p
    simp
  | cons s rest ih =>
    intro seen l hl
    rcases hc : canonQ t s with _ | q
    · simp only [runIter, hc] at hl
      exact Option.noConfusion hl
    · simp only [runIter, hc] at hl
      by_cases hseen : q ∈ seen
      · rw [if_pos hseen] at hl
        obtain ⟨hnd, hmem⟩ := ih seen l hl
        refine ⟨hnd, ?_⟩
        intro p
        rw [hmem p]
        constructor
        · rintro ⟨⟨s', hs', hcs'⟩, hps⟩
          exact ⟨⟨s', List.mem_cons_of_mem _ hs', hcs'⟩, hps⟩
        · rintro ⟨⟨s', hs', hcs'⟩, hps⟩
          rcases List.mem_cons.mp hs' with hs0 | hs1
          · rw [hs0, hc] at hcs'
            simp only [Option.some.injEq] at hcs'
            rw [hcs'] at hseen
            exact absurd hseen hps
          · exact ⟨⟨s', hs1, hcs'⟩, hps⟩
      · rw [if_neg hseen] at hl
        rcases hrest : runIter t rest (seen ++ [q]) with _ | l'
        · rw [hrest] at hl
          exact Option.noConfusion hl
        · rw [hrest] at hl
          simp only [Option.some.injEq] at hl
          obtain ⟨hnd, hmem⟩ := ih _ _ hrest
          rw [← hl]
          constructor
          · rw [List.nodup_cons]
            refine ⟨?_, hnd⟩
            intro hq
            have h0 := ((hmem q).mp hq).2
            exact h0 (List.mem_append.mpr (Or.inr (List.mem_singleton.mpr rfl)))
          · intro p
            rw [List.mem_cons, hmem p]
            constructor
            · rintro (hp0 | ⟨⟨s', hs', hcs'⟩, hps⟩)
              · refine ⟨⟨s, List.mem_cons_self _ _, ?_⟩, ?_⟩
                · rw [hc, hp0]
                · rw [hp0]
                  exact hseen
              · refine ⟨⟨s', List.mem_cons_of_mem _ hs', hcs'⟩, ?_⟩
                intro hpin
                exact hps (List.mem_append.mpr (Or.inl hpin))
            · rintro ⟨⟨s', hs', hcs'⟩, hps⟩
              by_cases hpq : p = q
              · exact Or.inl hpq
              · refine Or.inr ?_
                rcases List.mem_cons.mp hs' with hs0 | hs1
                · rw [hs0, hc] at hcs'
                  simp only [Option.some.injEq] at hcs'
                  exact absurd hcs'.symm hpq
                · refine ⟨⟨s', hs1, hcs'⟩, ?_⟩
                  intro hpin
                  rcases List.mem_append.mp hpin with hin1 | hin2
                  · exact hps hin1
                  · exact hpq (List.mem_singleton.mp hin2)

/-- The iterator cannot emit more pieces than it consumes symmetries. -/
theorem runIter_length_le {t : Template} :
    ∀ (syms : List Mat3) (seen l : List Piece), runIter t syms seen = some l →
      l.length ≤ syms.length := by
  intro syms
  induction syms with
  | nil =>
    intro seen l hl
    simp only [runIter, Option.some.injEq] at hl
    rw [← hl]
    exact Nat.le_refl 0
  | cons s rest ih =>
    intro seen l hl
    rcases hc : canonQ t s with _ | q
    · simp only [runIter, hc] at hl
      exact Option.noConfusion hl
    · simp only [runIter, hc] at hl
      by_cases hseen : q ∈ seen
      · rw [if_pos hseen] at hl
        exact Nat.le_succ_of_le (ih seen l hl)
      · rw [if_neg hseen] at hl
        rcases hrest : runIter t rest (seen ++ [q]) with _ | l'
        · rw [hrest] at hl
          exact Option.noConfusion hl
        · rw [hrest] at hl
          simp only [Option.some.injEq] at hl
          rw [← hl]
          exact Nat.succ_le_succ (ih _ _ hrest)

/-- C2 fails as stated for the empty Template: instead of ending after the
24 symmetries, the first `next()` call panics, so no orientation count is
produced at all. -/
theorem C2_counterexample :
    piecesQ (Template.new []) = none
      ∧ ¬ ∃ l, piecesQ (Template.new []) = some l
          ∧ l.length ∈ ([1, 2, 3, 4, 6, 8, 12, 24] : List ℕ) := by
  have h : piecesQ (Template.new []) = none := by decide
  refine ⟨h, ?_⟩
  rintro ⟨l, hl, _⟩
  rw [h] at hl
  exact Option.noConfusion hl

/-- C2 (amended to templates with at least one position): the completed
iteration emits each canonicalized orientation exactly once (first
occurrences only — the emitted list has no duplicates and holds precisely the
canonicalizations arising from the fixed 24-symmetry order), and the number
of emitted pieces is at most 24 and lies in `{1, 2, 3, 4, 6, 8, 12, 24}`. -/
theorem C2_orientation_generator (t : Template) (ht : t.positions ≠ [])
    (l : List Piece) (hl : piecesQ t = some l) :
    l.Nodup
      ∧ (∀ p, p ∈ l ↔ ∃ s ∈ allSyms, canonQ t s = some p)
      ∧ l.length ≤ 24
      ∧ l.length ∈ ([1, 2, 3, 4, 6, 8, 12, 24] : List ℕ) := by
  obtain ⟨hnd, hmem⟩ := runIter_nodup_mem allSyms [] l hl
  have hmem' : ∀ p, p ∈ l ↔ ∃ s ∈ allSyms, canonQ t s = some p := by
    intro p
    rw [hmem p]
    simp
  have hle : l.length ≤ 24 := by
    have h0 := runIter_length_le allSyms [] l hl
    rwa [allSyms_length] at h0
  refine ⟨hnd, hmem', hle, ?_⟩
  have hmemP : ∀ p, p ∈ l ↔ ∃ s ∈ allSyms, canonP t s = p := by
    intro p
    rw [hmem' p]
    constructor
    · rintro ⟨s, hs, hcs⟩
      refine ⟨s, hs, ?_⟩
      have h0 := canonQ_eq_some_canonP ht s
      rw [hcs] at h0
      simp only [Option.some.injEq] at h0
      exact h0.symm
    · rintro ⟨s, hs, hcs⟩
      refine ⟨s, hs, ?_⟩
      rw [canonQ_eq_some_canonP ht s, hcs]
  have hfin : l.toFinset = allSyms.toFinset.image (canonP t) := by
    ext p
    rw [List.mem_toFinset, Finset.mem_image, hmemP p]
    constructor
    · rintro ⟨s, hs, hcs⟩
      exact ⟨s, List.mem_toFinset.mpr hs, hcs⟩
    · rintro ⟨s, hs, hcs⟩
      exact ⟨s, List.mem_toFinset.mp hs, hcs⟩
  have hlen : l.length = (allSyms.toFinset.image (canonP t)).card := by
    rw [← hfin, List.toFinset_card_of_nodup hnd]
  have hdvd : l.length ∣ 24 := by
    rw [hlen]
    exact card_image_canonP_dvd ht
  have hpos : 1 ≤ l.length := by
    have hid : canonP t idM ∈ l := (hmemP _).mpr ⟨idM, idM_mem_allSyms, rfl⟩
    cases l with
    | nil => simp at hid
    | cons a l' => exact Nat.succ_le_succ (Nat.zero_le _)
  have hgen : ∀ n : ℕ, n ∣ 24 → 1 ≤ n → n ≤ 24 →
      n ∈ ([1, 2, 3, 4, 6, 8, 12, 24] : List ℕ) := by
    intro n hd h1 h24
    interval_cases n <;> first | decide | exact absurd hd (by decide)
  exact hgen l.length hdvd hpos hle

/-- Witness for C2 (amended) at the one-cube template, whose generator emits
exactly one orientation. -/
theorem C2_orientation_generator_witness :
    (Template.new [origin]).positions ≠ []
      ∧ ([Piece.mk [origin] none] : List Piece).length
          ∈ ([1, 2, 3, 4, 6, 8, 12, 24] : List ℕ) :=
  ⟨by decide,
    (C2_orientation_generator (Template.new [origin]) (by decide)
      [Piece.mk [origin] none] (by decide)).2.2.2⟩

/-- The placed pieces are pairwise cell-disjoint. -/
def piecesDisjoint (l : List Piece) : Prop :=
  List.Pairwise (fun p q => ∀ c ∈ p.positions, c ∉ q.positions) l

/-- The placed pieces' cells, as a set, are exactly the given cells. -/
def coversExactly (l : List Piece) (cells : List V3) : Prop :=
  ∀ c, (∃ p ∈ l, c ∈ p.positions) ↔ c ∈ cells

/-- Extending a disjoint exact cover of the reduced target by the placed
piece gives a disjoint exact cover of the original target. -/
theorem cover_step {target : Target} {p' : Piece} {extra' : List Piece}
    (hfit : Target.fits target p')
    (hdis : piecesDisjoint extra')
    (hcov : coversExactly extra' (Target.place target p').collection) :
    piecesDisjoint (p' :: extra') ∧ coversExactly (p' :: extra') target.collection := by
  constructor
  · refine List.Pairwise.cons ?_ hdis
    intro q hq c hc hcq
    have hmem : c ∈ (Target.place target p').collection := (hcov c).mp ⟨q, hq, hcq⟩
    rw [mem_place_iff] at hmem
    exact hmem.2 hc
  · intro c
    constructor
    · rintro ⟨q, hq, hcq⟩
      rcases List.mem_cons.mp hq with hq0 | hq'
      · exact hfit c (hq0 ▸ hcq)
      · have hmem := (hcov c).mp ⟨q, hq', hcq⟩
        rw [mem_place_iff] at hmem
        exact hmem.1
    · intro hc
      by_cases hcp : c ∈ p'.positions
      · exact ⟨p', List.mem_cons_self _ _, hcp⟩
      · have hplace : c ∈ (Target.place target p').collection :=
          (mem_place_iff _ _ _).mpr ⟨hc, hcp⟩
        obtain ⟨q, hq, hcq⟩ := (hcov c).mpr hplace
        exact ⟨q, List.mem_cons_of_mem _ hq, hcq⟩

/-- Soundness of the inner piece loop, given soundness of the recursive
`solveWith` calls on strictly smaller targets. -/
theorem loopPieces_sound (target : Target) (openPos : V3)
    (hmem : openPos ∈ target.collection)
    (IH : ∀ t' : Target, t'.collection.length < target.collection.length →
      ∀ (bag : Bag) (sol s : Solution), s ∈ (solveWith t' bag sol).1 →
        ∃ extra, s.pieces = sol.pieces ++ extra ∧ piecesDisjoint extra
          ∧ coversExactly extra t'.collection) :
    ∀ (ps : List Piece) (rest : Bag) (sol s : Solution),
      s ∈ (loopPieces target openPos hmem sol rest ps).1 →
      ∃ extra, s.pieces = sol.pieces ++ extra ∧ piecesDisjoint extra
        ∧ coversExactly extra target.collection := by
  intro ps
  induction ps with
  | nil =>
    intro rest sol s hs
    simp only [loopPieces] at hs
    simp at hs
  | cons p ps ihps =>
    intro rest sol s hs
    simp only [loopPieces] at hs
    split at hs
    · simp at hs
    · next block hb =>
      split at hs
      · next hfit =>
        have hlt : (Target.place target
              (Piece.translate p (vsub openPos block))).collection.length
            < target.collection.length :=
          length_place_lt hmem (openPos_mem_translate (minPos_spec hb).1)
        split at hs
        · obtain ⟨extra', he, hd, hc⟩ := IH _ hlt _ _ _ hs
          refine ⟨Piece.translate p (vsub openPos block) :: extra', ?_, ?_⟩
          · rw [he]
            simp [Solution.record]
          · exact cover_step hfit hd hc
        · rcases List.mem_append.mp hs with hs1 | hs2
          · obtain ⟨extra', he, hd, hc⟩ := IH _ hlt _ _ _ hs1
            refine ⟨Piece.translate p (vsub openPos block) :: extra', ?_, ?_⟩
            · rw [he]
              simp [Solution.record]
            · exact cover_step hfit hd hc
          · exact ihps _ _ _ hs2
      · next hfit =>
        exact ihps _ _ _ hs

/-- Soundness of the supply loop, given soundness of the recursive
`solveWith` calls on strictly smaller targets. -/
theorem loopOptions_sound (target : Target) (openPos : V3)
    (hmem : openPos ∈ target.collection)
    (IH : ∀ t' : Target, t'.collection.length < target.collection.length →
      ∀ (bag : Bag) (sol s : Solution), s ∈ (solveWith t' bag sol).1 →
        ∃ extra, s.pieces = sol.pieces ++ extra ∧ piecesDisjoint extra
          ∧ coversExactly extra t'.collection) :
    ∀ (opts : List (Template × Bag)) (sol s : Solution),
      s ∈ (loopOptions target openPos hmem sol opts).1 →
      ∃ extra, s.pieces = sol.pieces ++ extra ∧ piecesDisjoint extra
        ∧ coversExactly extra target.collection := by
  intro opts
  induction opts with
  | nil =>
    intro sol s hs
    simp only [loopOptions] at hs
    simp at hs
  | cons pr more ihop =>
    intro sol s hs
    obtain ⟨tpl, rest⟩ := pr
    simp only [loopOptions] at hs
    split at hs
    · simp at hs
    · next ps hps =>
      split at hs
      · exact loopPieces_sound target openPos hmem IH ps _ sol s hs
      · rcases List.mem_append.mp hs with hs1 | hs2
        · exact loopPieces_sound target openPos hmem IH ps _ sol s hs1
        · exact ihop sol s hs2

/-- Soundness of `solve_with`: every reported solution extends the partial
solution it started from by pieces that are pairwise cell-disjoint and whose
cells are exactly the target's cells. -/
theorem solveWith_sound :
    ∀ (n : ℕ) (target : Target), target.collection.length = n →
    ∀ (bag : Bag) (sol s : Solution),
      s ∈ (solveWith target bag sol).1 →
      ∃ extra, s.pieces = sol.pieces ++ extra ∧ piecesDisjoint extra
        ∧ coversExactly extra target.collection := by
  intro n
  induction n using Nat.strong_induction_on with
  | _ n IHn =>
    intro target hlen bag sol s hs
    simp only [solveWith] at hs
    split at hs
    · next hpack =>
      simp at hs
      refine ⟨[], by simp [hs], List.Pairwise.nil, ?_⟩
      intro c
      unfold Target.isPacked at hpack
      simp [hpack]
    · split at hs
      · simp at hs
      · next openPos hm =>
        have IH : ∀ t' : Target, t'.collection.length < target.collection.length →
            ∀ (bag : Bag) (sol s : Solution), s ∈ (solveWith t' bag sol).1 →
              ∃ extra, s.pieces = sol.pieces ++ extra ∧ piecesDisjoint extra
                ∧ coversExactly extra t'.collection := by
          intro t' hlt
          exact IHn t'.collection.length (hlen ▸ hlt) t' rfl
        exact loopOptions_sound target openPos (minPos_spec hm).1 IH _ sol s hs

/-- C1: solver soundness — for a target whose cell list has no duplicates and
any supply, every solution `solve` passes (via `solve_with`) to the
`when_solved` callback consists of pieces that are pairwise cell-disjoint and
whose cells' union is exactly the original target's cell set. -/
theorem C1_solver_soundness (target : Target) (bag : Bag)
    (hnodup : target.collection.Nodup)
    (s : Solution) (hs : s ∈ (solve target bag).1) :
    piecesDisjoint s.pieces ∧ coversExactly s.pieces target.collection := by
  obtain ⟨extra, he, hd, hc⟩ :=
    solveWith_sound target.collection.length target rfl bag Solution.empty s hs
  have hse : s.pieces = extra := by simpa [Solution.empty] using he
  rw [hse]
  exact ⟨hd, hc⟩

/-- Witness for C1 on the one-cell target packed by one cube. -/
theorem C1_solver_soundness_witness :
    (Target.new [origin]).collection.Nodup
      ∧ (piecesDisjoint (Solution.mk [Piece.mk [origin] none]).pieces
          ∧ coversExactly (Solution.mk [Piece.mk [origin] none]).pieces
              (Target.new [origin]).collection) :=
  ⟨by decide,
    C1_solver_soundness (Target.new [origin]) (Bag.mk [(1, Template.new [origin])])
      (by decide) (Solution.mk [Piece.mk [origin] none]) (by
        have hp : piecesQ (Template.new [((0:ℤ), (0:ℤ), (0:ℤ))])
            = some [Piece.mk [((0:ℤ), (0:ℤ), (0:ℤ))] none] := by
          decide
        have hp0 : piecesQ (Template.new [(0 : V3)])
            = some [Piece.mk [(0 : V3)] none] := hp
        simp [solve, solveWith, loopOptions, loopPieces, hp, hp0, Bag.options, bagOptions,
          Target.isPacked, Target.new, Target.fits, Target.place, minPos,
          Piece.translate, Solution.record, Solution.empty, vadd, vsub, origin])⟩

end Packing
